import Mathlib

/-!
Verification of the free-memory bookkeeping core of the `ralloc` allocator:
the `Block` abstraction (src/block.rs) and the skip-list `Pool` search
(src/bk/pool.rs).

Embedding conventions:
* Machine addresses and sizes (`usize` / the `Size` newtype) are modelled as
  `Nat`.  The source code documents that all the additions it performs are
  bounded by the address space ("this conversion isn't overflowing",
  "adding them cannot overflow"), so plain `Nat` arithmetic is the faithful
  model of the non-overflowing `usize` arithmetic.
* A Rust function taking `&mut` operands is embedded in state-passing style:
  it takes the operand values and returns the result together with the
  post-call value of every `&mut` operand.
* A failed Rust assertion (a fatal, unrecoverable error) is modelled as
  `Option.none`; a recoverable `Err(())`/`None` result is an explicit
  constructor of the returned value.
-/

namespace Ralloc

/-- A contiguous memory block (src/block.rs, `struct Block`): a size in
bytes and the pointer (address) of its start. -/
structure Block where
  size : Nat
  ptr : Nat
deriving DecidableEq, Repr

/-- `Block::is_empty` (src/block.rs:101): the block is empty/free iff its
size is zero. -/
def Block.is_empty (b : Block) : Bool :=
  b.size == 0

/-- `Block::empty` (src/block.rs:51): an empty block starting at `ptr`. -/
def Block.empty (ptr : Nat) : Block :=
  ⟨0, ptr⟩

/-- `Block::empty_left` (src/block.rs:61): empty block at the left edge. -/
def Block.empty_left (b : Block) : Block :=
  Block.empty b.ptr

/-- `Block::empty_right` (src/block.rs:67): empty block at the right edge,
i.e. at address `ptr + size`. -/
def Block.empty_right (b : Block) : Block :=
  ⟨0, b.ptr + b.size⟩

/-- `Block::left_to` (src/block.rs:164): `self.size + self.ptr == to.ptr`,
the adjacency test used by coalescing. -/
def Block.left_to (b other : Block) : Bool :=
  b.size + b.ptr == other.ptr

/-- `Block::pop` (src/block.rs:158): replace the block in place with an
empty block at the same address, returning the old value.  State-passing:
the first component is the returned old value, the second the new value of
`self`. -/
def Block.pop (b : Block) : Block × Block :=
  (b, Block.empty b.ptr)

/-- `Block::merge_right` (src/block.rs:88): succeeds iff `self.left_to(block)`,
folding the right operand's size into `self` and popping the right operand
to empty; otherwise returns `Err(())`.  State-passing embedding: the `Bool`
is success, the pair is the post-call value of `(self, block)`. -/
def Block.merge_right (self other : Block) : Bool × Block × Block :=
  if self.left_to other then
    (true, ⟨self.size + (other.pop).1.size, self.ptr⟩, (other.pop).2)
  else
    (false, self, other)

/-- `Block::split` (src/block.rs:181): consumes `self` and returns the two
halves `[0, pos)` and `[pos, size)`.  The `assert!(pos <= self.size)`
panic (a fatal error) is modelled as `none`. -/
def Block.split (self : Block) (pos : Nat) : Option (Block × Block) :=
  if pos ≤ self.size then
    some (⟨pos, self.ptr⟩, ⟨self.size - pos, self.ptr + pos⟩)
  else
    none

/-- The aligner computed by `Block::align` (src/block.rs:217): the smallest
left padding that makes `ptr + aligner` a multiple of `align`, computed as
`(align - ptr % align) % align`. -/
def aligner (ptr align : Nat) : Nat :=
  (align - ptr % align) % align

/-- `Block::align` (src/block.rs:208): if the aligner is smaller than the
size, pop `self` (leaving it empty) and return the precursor and the
aligned remainder; otherwise fail, leaving `self` untouched.  State-passing
embedding: the second component is the post-call value of `self`. -/
def Block.align (self : Block) (align : Nat) : Option (Block × Block) × Block :=
  if aligner self.ptr align < self.size then
    (some (⟨aligner self.ptr align, self.ptr⟩,
           ⟨self.size - aligner self.ptr align, self.ptr + aligner self.ptr align⟩),
     Block.empty self.ptr)
  else
    (none, self)

/-- `impl PartialEq for Block` (src/block.rs:298): equality compares the
address only. -/
def Block.beq (a b : Block) : Bool :=
  a.ptr == b.ptr

/-- `impl Ord for Block` (src/block.rs:291): ordering compares the address
only. -/
def Block.cmp (a b : Block) : Ordering :=
  compare a.ptr b.ptr

/-! ### Arithmetic helper for alignment -/

lemma aligner_lt (ptr align : Nat) (ha : 0 < align) : aligner ptr align < align :=
  Nat.mod_lt _ ha

lemma aligner_add_mod (ptr align : Nat) (ha : 0 < align) :
    (ptr + aligner ptr align) % align = 0 := by
  show (ptr + (align - ptr % align) % align) % align = 0
  rcases Nat.eq_zero_or_pos (ptr % align) with hz | hpos
  · rw [hz, Nat.sub_zero, Nat.mod_self, Nat.add_zero]
    exact hz
  · have hlt : ptr % align < align := Nat.mod_lt _ ha
    have h1 : (align - ptr % align) % align = align - ptr % align :=
      Nat.mod_eq_of_lt (by omega)
    rw [h1]
    have hdm := Nat.div_add_mod ptr align
    have h2 : ptr + (align - ptr % align) = align * (ptr / align) + align := by omega
    have h3 : align * (ptr / align) + align = align * (ptr / align + 1) := by ring
    rw [h2, h3, Nat.mul_mod_right]

/-! ### Claims about `Block` -/

/-- C1: evaluation of `Block::merge_right` at a failing input.  The right
operand at address 100 is empty (size 0) and not adjacent to the left
operand `[0, 4)`, and `merge_right` returns failure leaving both operands
unchanged — although the function's own documentation (src/block.rs:86,
"If you merge with a zero sized block, it will succeed, even if they are
not adjacent") and the repository's `merge` test (src/block.rs:359) demand
success on an empty right operand. -/
theorem merge_right_rejects_empty_nonadjacent :
    Block.is_empty ⟨0, 100⟩ = true ∧
    Block.left_to ⟨4, 0⟩ ⟨0, 100⟩ = false ∧
    Block.merge_right ⟨4, 0⟩ ⟨0, 100⟩ = (false, ⟨4, 0⟩, ⟨0, 100⟩) := by
  decide

/-- C3: splitting a block at any in-bounds position and then merging the
two returned halves with `merge_right` succeeds and reconstructs a block
with the same address and the same size as the original. -/
theorem split_merge_right_reconstructs (b : Block) (pos : Nat) (h : pos ≤ b.size) :
    ∃ l r, b.split pos = some (l, r) ∧ (l.merge_right r).1 = true ∧
      (l.merge_right r).2.1.size = b.size ∧ (l.merge_right r).2.1.ptr = b.ptr := by
  refine ⟨⟨pos, b.ptr⟩, ⟨b.size - pos, b.ptr + pos⟩, by simp [Block.split, h], ?_, ?_, ?_⟩
  · simp [Block.merge_right, Block.left_to, Block.pop, Nat.add_comm]
  · simp [Block.merge_right, Block.left_to, Block.pop, Block.empty, Nat.add_comm]
    omega
  · simp [Block.merge_right, Block.left_to, Block.pop, Nat.add_comm]

/-- C3 witness: the reconstruction property at the concrete block `[4096, 4106)`
split at position 4. -/
theorem split_merge_right_reconstructs_witness :
    ∃ l r, Block.split ⟨10, 4096⟩ 4 = some (l, r) ∧ (l.merge_right r).1 = true ∧
      (l.merge_right r).2.1.size = 10 ∧ (l.merge_right r).2.1.ptr = 4096 :=
  split_merge_right_reconstructs ⟨10, 4096⟩ 4 (by decide)

/-- C5: `Block::align` fails exactly when the required left padding (the
aligner, computed modulo `align`) is at least the block's size, leaving the
block untouched; otherwise it succeeds, leaving the block empty and
returning `(pre, post)` with `post` aligned, the sizes summing to the
original size, and `pre` at the original address. -/
theorem align_spec (b : Block) (a : Nat) (ha : 0 < a) :
    (b.align a = (none, b) ↔ b.size ≤ aligner b.ptr a) ∧
    (aligner b.ptr a < b.size →
      ∃ pre post, b.align a = (some (pre, post), Block.empty b.ptr) ∧
        post.ptr % a = 0 ∧ pre.size + post.size = b.size ∧ pre.ptr = b.ptr) := by
  refine ⟨⟨fun h => ?_, fun h => ?_⟩, fun h => ?_⟩
  · by_contra hlt
    push_neg at hlt
    simp [Block.align, hlt] at h
  · simp [Block.align, Nat.not_lt.mpr h]
  · refine ⟨⟨aligner b.ptr a, b.ptr⟩, ⟨b.size - aligner b.ptr a, b.ptr + aligner b.ptr a⟩,
      by simp [Block.align, h], aligner_add_mod b.ptr a ha, ?_, rfl⟩
    show aligner b.ptr a + (b.size - aligner b.ptr a) = b.size
    omega

/-- C5 witness: the success branch of `align_spec` at the concrete block
`[4097, 4107)` aligned to 8 (padding 7 < 10). -/
theorem align_spec_witness :
    ∃ pre post, Block.align ⟨10, 4097⟩ 8 = (some (pre, post), Block.empty 4097) ∧
      post.ptr % 8 = 0 ∧ pre.size + post.size = 10 ∧ pre.ptr = 4097 :=
  (align_spec ⟨10, 4097⟩ 8 (by decide)).2 (by decide)

/-- C6: `Block::split` at an in-bounds position returns the pair
`([ptr, ptr+pos), [ptr+pos, ptr+size))`, and at an out-of-bounds position
fails fatally (the assertion panic, modelled as `none`) rather than
returning a recoverable error. -/
theorem split_spec (s p pos : Nat) :
    (pos ≤ s → Block.split ⟨s, p⟩ pos = some (⟨pos, p⟩, ⟨s - pos, p + pos⟩)) ∧
    (s < pos → Block.split ⟨s, p⟩ pos = none) := by
  constructor
  · intro h
    simp [Block.split, h]
  · intro h
    simp [Block.split]
    omega

/-- C6 witness: the spec scenario — a block of size 10 at 0x1000 splits at
4 into sizes 4 and 6, and splitting at 11 is the fatal error. -/
theorem split_spec_witness :
    Block.split ⟨10, 4096⟩ 4 = some (⟨4, 4096⟩, ⟨6, 4100⟩) ∧
    Block.split ⟨10, 4096⟩ 11 = none :=
  ⟨(split_spec 10 4096 4).1 (by decide), (split_spec 10 4096 11).2 (by decide)⟩

/-- C7: whenever `merge_right` or `align` returns its ordinary failure
value, every operand is left with its address and size exactly as they
were before the call. -/
theorem ordinary_failure_atomic :
    (∀ a b : Block, (a.merge_right b).1 = false →
      (a.merge_right b).2.1 = a ∧ (a.merge_right b).2.2 = b) ∧
    (∀ (b : Block) (al : Nat), (b.align al).1 = none → (b.align al).2 = b) := by
  constructor
  · intro a b h
    simp only [Block.merge_right] at h ⊢
    by_cases hc : a.left_to b = true
    · rw [if_pos hc] at h
      simp at h
    · rw [if_neg hc]
      exact ⟨rfl, rfl⟩
  · intro b al h
    simp only [Block.align] at h ⊢
    by_cases hc : aligner b.ptr al < b.size
    · rw [if_pos hc] at h
      simp at h
    · rw [if_neg hc]

/-- C7 witness: failing `merge_right` on non-adjacent non-empty blocks and
failing `align` (padding 7 ≥ size 2) both leave their operands unchanged. -/
theorem ordinary_failure_atomic_witness :
    (Block.merge_right ⟨4, 0⟩ ⟨3, 50⟩).2.1 = ⟨4, 0⟩ ∧
    (Block.merge_right ⟨4, 0⟩ ⟨3, 50⟩).2.2 = ⟨3, 50⟩ ∧
    (Block.align ⟨2, 1⟩ 8).2 = ⟨2, 1⟩ :=
  ⟨(ordinary_failure_atomic.1 ⟨4, 0⟩ ⟨3, 50⟩ (by decide)).1,
   (ordinary_failure_atomic.1 ⟨4, 0⟩ ⟨3, 50⟩ (by decide)).2,
   ordinary_failure_atomic.2 ⟨2, 1⟩ 8 (by decide)⟩

/-- C8: block equality and ordering compare the address only: two blocks
with the same address are equal under `PartialEq` and compare as equal
under `Ord`, whatever their sizes. -/
theorem beq_cmp_address_only (a b : Block) (h : a.ptr = b.ptr) :
    a.beq b = true ∧ a.cmp b = Ordering.eq := by
  constructor
  · simp [Block.beq, h]
  · simp [Block.cmp, h, Nat.compare_eq_eq]

/-- C8 witness: blocks at the same address 7 with different sizes 1 and 2
are equal and compare as equal. -/
theorem beq_cmp_address_only_witness :
    Block.beq ⟨1, 7⟩ ⟨2, 7⟩ = true ∧ Block.cmp ⟨1, 7⟩ ⟨2, 7⟩ = Ordering.eq :=
  beq_cmp_address_only ⟨1, 7⟩ ⟨2, 7⟩ rfl

/-- C10: merging a block with its own right-edge marker always succeeds
and leaves the block's address and size unchanged. -/
theorem merge_right_empty_right_identity (b : Block) :
    (b.merge_right b.empty_right).1 = true ∧
    (b.merge_right b.empty_right).2.1.size = b.size ∧
    (b.merge_right b.empty_right).2.1.ptr = b.ptr := by
  have hl : b.left_to ⟨0, b.ptr + b.size⟩ = true := by
    simp [Block.left_to]
    omega
  simp [Block.merge_right, Block.empty_right, hl, Block.pop]

/-! ### The skip-list Pool and its search (src/bk/pool.rs) -/

/-- Modelled from the spec: the `Node` type is not under src/ (only
`Pool::search`, its caller, is).  Per spec §3/§4.3 a Node wraps one free
Block plus forward links ("shortcuts") for levels `1..=level`; the forward
links are determined by the base chain and the node levels, because the
chain at level `L` is the subsequence of base-chain nodes whose level is
at least `L` (spec invariant 4). -/
structure BNode where
  block : Block
  level : Nat
deriving DecidableEq, Repr

/-- Modelled from the spec: the `Pool` (declared at src/bk/pool.rs:8 with
a head sentinel and an arena) observed through its base chain of nodes in
link order.  The head sentinel is represented implicitly: a `none` slot in
a `Seek` denotes the sentinel. -/
structure Pool where
  nodes : List BNode
deriving DecidableEq, Repr

/-- Modelled from the spec: the chain of nodes reachable at level `L`
(spec invariant 4: the subsequence of base-chain nodes of level at least
`L`). -/
def chainAt (L : Nat) (s : List BNode) : List BNode :=
  s.filter (fun n => L ≤ n.level)

/-- Modelled from the spec: a `Seek` (spec §3) — one `back_look`
predecessor per level, top level first, plus the base predecessor node.
`none` denotes the head sentinel. -/
structure Seek where
  back_look : List (Option BNode)
  node : Option BNode
deriving DecidableEq, Repr

/-- The first node of the base-chain suffix `s` reachable at level `L`
(the level-`L` forward link from the cursor position), together with the
rest of the base chain after it. -/
def findAtLevel (L : Nat) : List BNode → Option (BNode × List BNode)
  | [] => none
  | n :: rest => if L ≤ n.level then some (n, rest) else findAtLevel L rest

/-- Whether the level-`L` walk takes at least one more shortcut, i.e. the
next level-`L` node exists and its address is below the target. -/
def probe (target : Block) (L : Nat) (s : List BNode) : Bool :=
  match findAtLevel L s with
  | none => false
  | some (n, _) => n.block.ptr < target.ptr

/-- One level of `Pool::search` (src/bk/pool.rs:33, the
`iter.take_while(|x| x < block).last()` walk): advance the cursor through
the level-`L` chain while the next node's address is below the target.
The cursor position is the remaining base-chain suffix; `l` is the last
node reached so far (`none` meaning the head sentinel). -/
def advanceAt (target : Block) (L : Nat) : List BNode → Option BNode → List BNode × Option BNode
  | [], l => ([], l)
  | n :: rest, l =>
    if L ≤ n.level then
      if n.block.ptr < target.ptr then advanceAt target L rest (some n)
      else (n :: rest, l)
    else
      if probe target L (n :: rest) then advanceAt target L rest l
      else (n :: rest, l)

/-- The level loop of `Pool::search` (src/bk/pool.rs:33-51): walk levels
`L, L-1, ..., 1`, each from the position where the previous level
stopped, recording the node reached at each level into `back_look` (top
level first).  The shortcut-iterator type is not under src/, so its
stepping is modelled from the spec (§4.4): every level is visited and
records its predecessor, the sentinel if no shortcut was taken — matching
the source's closing comment that every `back_look` cell is initialized. -/
def searchLevels (target : Block) : Nat → List BNode → Option BNode →
    List (Option BNode) × List BNode × Option BNode
  | 0, s, l => ([], s, l)
  | L + 1, s, l =>
    let p := advanceAt target (L + 1) s l
    let q := searchLevels target L p.1 p.2
    (p.2 :: q.1, q.2.1, q.2.2)

/-- The base-chain scan of `Pool::search` (src/bk/pool.rs:57): from the
final cursor position take the last node below the target in the base
chain (every node is on the base chain). -/
def advanceBase (target : Block) : List BNode → Option BNode → Option BNode
  | [], l => l
  | n :: rest, l =>
    if n.block.ptr < target.ptr then advanceBase target rest (some n) else l

/-- `Pool::search` (src/bk/pool.rs:14): walk the levels from `maxLevel`
(the `shortcut::Level::max()` bound, kept as a parameter because its
value is not under src/) down to level 1, then scan the base chain for
the exact predecessor. -/
def search (maxLevel : Nat) (pool : Pool) (target : Block) : Seek :=
  let r := searchLevels target maxLevel pool.nodes none
  ⟨r.1, advanceBase target r.2.1 r.2.2⟩

/-- The naive O(n) reference: a linear scan of the whole base chain for
the last node whose address is strictly below the target. -/
def linearScan (target : Block) : List BNode → Option BNode → Option BNode
  | [], l => l
  | n :: rest, l =>
    if n.block.ptr < target.ptr then linearScan target rest (some n)
    else linearScan target rest l

/-- Strict address order between nodes, the order in which the Pool keeps
its base chain (spec invariant 1). -/
def nodeLt (a b : BNode) : Prop :=
  a.block.ptr < b.block.ptr

instance : DecidableRel nodeLt :=
  fun a b => inferInstanceAs (Decidable (a.block.ptr < b.block.ptr))

/-- Weak address order on optional nodes, the sentinel `none` below
everything. -/
def optLe (x y : Option BNode) : Bool :=
  match x, y with
  | none, _ => true
  | some _, none => false
  | some a, some b => a.block.ptr ≤ b.block.ptr

/-- Strict address order on optional nodes, lenient on the sentinel. -/
def optLt (x y : Option BNode) : Bool :=
  match x, y with
  | some a, some b => a.block.ptr < b.block.ptr
  | _, _ => true

/-- The last node of `t`, or `l` when `t` is empty: the value accumulated
by a walk that passes the nodes of `t` after having last reached `l`. -/
def lastOr (l : Option BNode) : List BNode → Option BNode
  | [] => l
  | n :: rest => lastOr (some n) rest

/-! ### Basic lemmas about the walk -/

lemma findAtLevel_mem {L : Nat} :
    ∀ {s : List BNode} {m : BNode} {r : List BNode}, findAtLevel L s = some (m, r) → m ∈ s := by
  intro s
  induction s with
  | nil => intro m r h; simp [findAtLevel] at h
  | cons n rest ih =>
    intro m r h
    by_cases hL : L ≤ n.level
    · simp [findAtLevel, hL] at h
      simp [h.1]
    · simp only [findAtLevel, if_neg hL] at h
      exact List.mem_cons_of_mem n (ih h)

lemma probe_true_elim {target : Block} {L : Nat} {s : List BNode}
    (h : probe target L s = true) :
    ∃ m r, findAtLevel L s = some (m, r) ∧ m.block.ptr < target.ptr := by
  unfold probe at h
  cases hf : findAtLevel L s with
  | none => rw [hf] at h; simp at h
  | some p =>
    obtain ⟨m, r⟩ := p
    rw [hf] at h
    exact ⟨m, r, rfl, by simpa using h⟩

lemma advanceAt_of_no_below (target : Block) (L : Nat) :
    ∀ (s : List BNode) (l : Option BNode), (∀ n ∈ s, ¬ n.block.ptr < target.ptr) →
      advanceAt target L s l = (s, l) := by
  intro s
  induction s with
  | nil => intro l _; rfl
  | cons n rest ih =>
    intro l hno
    have hn : ¬ n.block.ptr < target.ptr := hno n (List.mem_cons_self n rest)
    by_cases hL : L ≤ n.level
    · simp [advanceAt, hL, hn]
    · have hpr : probe target L (n :: rest) = false := by
        by_contra hc
        rw [Bool.not_eq_false] at hc
        obtain ⟨m, r, hf, hm⟩ := probe_true_elim hc
        exact absurd hm (hno m (findAtLevel_mem hf))
      simp [advanceAt, hL, hpr]

lemma searchLevels_of_no_below (target : Block) :
    ∀ (L : Nat) (s : List BNode) (l : Option BNode),
      (∀ n ∈ s, ¬ n.block.ptr < target.ptr) →
      searchLevels target L s l = (List.replicate L l, s, l) := by
  intro L
  induction L with
  | zero => intro s l _; rfl
  | succ L ih =>
    intro s l hno
    simp only [searchLevels, advanceAt_of_no_below target (L + 1) s l hno, ih s l hno,
      List.replicate_succ]

/-- C2: for an empty Pool, and for a target whose address is below every
block present in the Pool, every `back_look` entry of the returned `Seek`
is the head sentinel (`none`). -/
theorem search_below_all_back_look_sentinel (maxLevel : Nat) (pool : Pool) (target : Block)
    (h : pool.nodes = [] ∨ ∀ n ∈ pool.nodes, target.ptr < n.block.ptr) :
    ∀ e ∈ (search maxLevel pool target).back_look, e = none := by
  have hno : ∀ n ∈ pool.nodes, ¬ n.block.ptr < target.ptr := by
    rcases h with h | h
    · simp [h]
    · intro n hn
      exact Nat.not_lt.mpr (Nat.le_of_lt (h n hn))
  intro e he
  simp only [search, searchLevels_of_no_below target maxLevel pool.nodes none hno] at he
  exact List.eq_of_mem_replicate he

/-! ### Lemmas for the differential search specification -/

lemma lastOr_append (t₁ : List BNode) :
    ∀ (t₂ : List BNode) (l : Option BNode), lastOr l (t₁ ++ t₂) = lastOr (lastOr l t₁) t₂ := by
  induction t₁ with
  | nil => intro t₂ l; rfl
  | cons n rest ih => intro t₂ l; exact ih t₂ (some n)

lemma lastOr_ne_nil_mem :
    ∀ (t : List BNode) (l : Option BNode), t ≠ [] → ∃ x ∈ t, lastOr l t = some x := by
  intro t
  induction t with
  | nil => intro l h; exact absurd rfl h
  | cons n rest ih =>
    intro l _
    cases rest with
    | nil => exact ⟨n, by simp, rfl⟩
    | cons m rest2 =>
      obtain ⟨x, hx, hlast⟩ := ih (some n) (by simp)
      exact ⟨x, List.mem_cons_of_mem n hx, hlast⟩

lemma lastOr_of_ne_nil (t : List BNode) (l l' : Option BNode) (h : t ≠ []) :
    lastOr l t = lastOr l' t := by
  induction t generalizing l l' with
  | nil => exact absurd rfl h
  | cons n rest ih =>
    cases rest with
    | nil => rfl
    | cons m rest2 => exact ih (some n) (some n) (by simp)

/-- The walk invariant: the last node reached is below the target and
below every node still ahead of the cursor. -/
def Inv (target : Block) (l : Option BNode) (s : List BNode) : Prop :=
  ∀ m, l = some m → m.block.ptr < target.ptr ∧ ∀ n ∈ s, m.block.ptr < n.block.ptr

lemma advanceAt_spec (target : Block) (L : Nat) :
    ∀ (s : List BNode) (l : Option BNode), s.Pairwise nodeLt →
      ∃ t s', advanceAt target L s l = (s', lastOr l t) ∧ s = t ++ s' ∧
        (∀ n ∈ t, n.block.ptr < target.ptr) ∧ (probe target L s = true → t ≠ []) := by
  intro s
  induction s with
  | nil =>
    intro l _
    exact ⟨[], [], rfl, rfl, by simp, by simp [probe, findAtLevel]⟩
  | cons n rest ih =>
    intro l hp
    rw [List.pairwise_cons] at hp
    obtain ⟨hlt_all, hp'⟩ := hp
    by_cases hL : L ≤ n.level
    · by_cases hlt : n.block.ptr < target.ptr
      · obtain ⟨t, s', heq, hdec, hmem, _⟩ := ih (some n) hp'
        refine ⟨n :: t, s', ?_, by simp [hdec], ?_, by simp⟩
        · show advanceAt target L (n :: rest) l = (s', lastOr l (n :: t))
          simp only [advanceAt, if_pos hL, if_pos hlt]
          exact heq
        · intro m hm
          rcases List.mem_cons.mp hm with hm | hm
          · rw [hm]; exact hlt
          · exact hmem m hm
      · refine ⟨[], n :: rest, ?_, rfl, by simp, ?_⟩
        · simp [advanceAt, hL, hlt, lastOr]
        · intro hpr
          obtain ⟨m, r, hf, hm⟩ := probe_true_elim hpr
          simp only [findAtLevel, if_pos hL] at hf
          obtain ⟨hm1, _⟩ := Prod.mk.injEq .. ▸ Option.some.injEq .. ▸ hf
          exact absurd (hm1 ▸ hm) hlt
    · by_cases hpr : probe target L (n :: rest) = true
      · obtain ⟨t, s', heq, hdec, hmem, hne⟩ := ih l hp'
        have hfr : probe target L rest = true := by
          unfold probe at hpr ⊢
          rw [show findAtLevel L (n :: rest) = findAtLevel L rest by
            simp [findAtLevel, hL]] at hpr
          exact hpr
        have ht : t ≠ [] := hne hfr
        obtain ⟨m0, r0, hf0, hm0⟩ := probe_true_elim hpr
        have hm0mem : m0 ∈ n :: rest := findAtLevel_mem hf0
        have hm0rest : m0 ∈ rest := by
          rcases List.mem_cons.mp hm0mem with h | h
          · exfalso
            simp only [findAtLevel, if_neg hL] at hf0
            have := findAtLevel_mem hf0
            rw [h] at this
            -- n ∈ rest together with pairwise gives n.ptr < n.ptr
            exact absurd (hlt_all n this) (by simp [nodeLt])
          · exact h
        refine ⟨n :: t, s', ?_, by simp [hdec], ?_, by simp⟩
        · show advanceAt target L (n :: rest) l = (s', lastOr l (n :: t))
          simp only [advanceAt, if_neg hL, if_pos hpr]
          rw [show lastOr l (n :: t) = lastOr (some n) t from rfl,
            lastOr_of_ne_nil t (some n) l ht]
          exact heq
        · intro m hm
          rcases List.mem_cons.mp hm with hm | hm
          · rw [hm]
            exact Nat.lt_trans (hlt_all m0 hm0rest) hm0
          · exact hmem m hm
      · exact ⟨[], n :: rest, by simp [advanceAt, hL, hpr, lastOr], rfl, by simp,
          fun h => absurd h hpr⟩

lemma inv_step (target : Block) {s t s' : List BNode} {l : Option BNode}
    (hp : s.Pairwise nodeLt) (hinv : Inv target l s) (hdec : s = t ++ s')
    (hmem : ∀ n ∈ t, n.block.ptr < target.ptr) :
    optLe l (lastOr l t) = true ∧ Inv target (lastOr l t) s' := by
  by_cases ht : t = []
  · subst ht
    simp only [lastOr]
    constructor
    · cases l with
      | none => rfl
      | some a => simp [optLe]
    · intro m hm
      obtain ⟨h1, h2⟩ := hinv m hm
      refine ⟨h1, fun n hn => h2 n ?_⟩
      rw [hdec]
      simpa using hn
  · obtain ⟨x, hxt, hlast⟩ := lastOr_ne_nil_mem t l ht
    rw [hlast]
    have hxs : x ∈ s := by
      rw [hdec]
      exact List.mem_append_left s' hxt
    constructor
    · cases l with
      | none => rfl
      | some a =>
        obtain ⟨_, h2⟩ := hinv a rfl
        simp [optLe, Nat.le_of_lt (h2 x hxs)]
    · intro m hm
      injection hm with hm
      subst hm
      refine ⟨hmem x hxt, fun n hn => ?_⟩
      have h := hp
      rw [hdec, List.pairwise_append] at h
      exact h.2.2 x hxt n hn

lemma searchLevels_spec (target : Block) :
    ∀ (L : Nat) (s : List BNode) (l : Option BNode), s.Pairwise nodeLt → Inv target l s →
      ∃ bl t s', searchLevels target L s l = (bl, s', lastOr l t) ∧
        s = t ++ s' ∧ (∀ n ∈ t, n.block.ptr < target.ptr) ∧
        s'.Pairwise nodeLt ∧ Inv target (lastOr l t) s' ∧
        List.Chain' (fun x y => optLe x y = true) (l :: bl) ∧
        (∀ e ∈ bl, ∀ n, e = some n → n.block.ptr < target.ptr) := by
  intro L
  induction L with
  | zero =>
    intro s l hp hinv
    exact ⟨[], [], s, rfl, rfl, by simp, hp, by simpa [lastOr] using hinv, by simp, by simp⟩
  | succ L ih =>
    intro s l hp hinv
    obtain ⟨t₁, s₁, heq1, hdec1, hmem1, _⟩ := advanceAt_spec target (L + 1) s l hp
    have hp1 : s₁.Pairwise nodeLt := by
      have h := hp
      rw [hdec1, List.pairwise_append] at h
      exact h.2.1
    obtain ⟨hle1, hinv1⟩ := inv_step target hp hinv hdec1 hmem1
    obtain ⟨bl₂, t₂, s₂, heq2, hdec2, hmem2, hp2, hinv2, hchain2, hent2⟩ :=
      ih s₁ (lastOr l t₁) hp1 hinv1
    refine ⟨lastOr l t₁ :: bl₂, t₁ ++ t₂, s₂, ?_, ?_, ?_, hp2, ?_, ?_, ?_⟩
    · simp only [searchLevels, heq1, heq2, lastOr_append]
    · rw [hdec1, hdec2, List.append_assoc]
    · intro n hn
      rcases List.mem_append.mp hn with h | h
      · exact hmem1 n h
      · exact hmem2 n h
    · rw [lastOr_append]
      exact hinv2
    · rw [List.chain'_cons]
      exact ⟨hle1, hchain2⟩
    · intro e he n hen
      rcases List.mem_cons.mp he with he | he
      · exact (hinv1 n (he ▸ hen)).1
      · exact hent2 e he n hen

lemma advanceBase_spec (target : Block) :
    ∀ (s : List BNode) (l : Option BNode), s.Pairwise nodeLt →
      ∃ t s', advanceBase target s l = lastOr l t ∧ s = t ++ s' ∧
        (∀ n ∈ t, n.block.ptr < target.ptr) ∧ (∀ n ∈ s', ¬ n.block.ptr < target.ptr) := by
  intro s
  induction s with
  | nil =>
    intro l _
    exact ⟨[], [], rfl, rfl, by simp, by simp⟩
  | cons n rest ih =>
    intro l hp
    rw [List.pairwise_cons] at hp
    obtain ⟨hall, hp'⟩ := hp
    by_cases hlt : n.block.ptr < target.ptr
    · obtain ⟨t, s', heq, hdec, hmem, hge⟩ := ih (some n) hp'
      refine ⟨n :: t, s', ?_, by simp [hdec], ?_, hge⟩
      · show advanceBase target (n :: rest) l = lastOr (some n) t
        simp only [advanceBase, if_pos hlt]
        exact heq
      · intro m hm
        rcases List.mem_cons.mp hm with hm | hm
        · rw [hm]; exact hlt
        · exact hmem m hm
    · refine ⟨[], n :: rest, by simp [advanceBase, hlt, lastOr], rfl, by simp, ?_⟩
      intro m hm
      rcases List.mem_cons.mp hm with hm | hm
      · rw [hm]; exact hlt
      · intro hc
        have h2 : n.block.ptr < m.block.ptr := hall m hm
        exact hlt (Nat.lt_trans h2 hc)

lemma linearScan_eq (target : Block) :
    ∀ (s : List BNode) (l : Option BNode),
      linearScan target s l =
        lastOr l (s.filter (fun n => decide (n.block.ptr < target.ptr))) := by
  intro s
  induction s with
  | nil => intro l; rfl
  | cons n rest ih =>
    intro l
    by_cases hlt : n.block.ptr < target.ptr
    · rw [show linearScan target (n :: rest) l = linearScan target rest (some n) by
        simp [linearScan, hlt]]
      rw [List.filter_cons_of_pos (by simpa using hlt)]
      exact ih (some n)
    · rw [show linearScan target (n :: rest) l = linearScan target rest l by
        simp [linearScan, hlt]]
      rw [List.filter_cons_of_neg (by simpa using hlt)]
      exact ih l

/-- C4 (amended): for every Pool whose base chain is strictly increasing
by address (spec invariant 1) and every target, the `back_look` entries
are non-decreasing by address from the top level down to the base level —
consecutive levels may repeat a predecessor, so the order is weak, not
strict — every non-sentinel entry's address is strictly below the
target's, and the base predecessor equals a naive O(n) linear scan of the
base chain for the last node below the target. -/
theorem search_sorted_matches_linear_scan (maxLevel : Nat) (pool : Pool) (target : Block)
    (hp : pool.nodes.Pairwise nodeLt) :
    List.Chain' (fun x y => optLe x y = true) (search maxLevel pool target).back_look ∧
    (∀ e ∈ (search maxLevel pool target).back_look, ∀ n, e = some n →
      n.block.ptr < target.ptr) ∧
    (search maxLevel pool target).node = linearScan target pool.nodes none := by
  have hinv0 : Inv target none pool.nodes := by intro m hm; cases hm
  obtain ⟨bl, t₁, s₁, heq1, hdec1, hmem1, hp1, hinv1, hchain, hent⟩ :=
    searchLevels_spec target maxLevel pool.nodes none hp hinv0
  obtain ⟨t₂, s₂, heq2, hdec2, hmem2, hge2⟩ := advanceBase_spec target s₁ (lastOr none t₁) hp1
  have hsearch : search maxLevel pool target = ⟨bl, lastOr (lastOr none t₁) t₂⟩ := by
    simp only [search, heq1, heq2]
  rw [hsearch]
  refine ⟨hchain.tail, hent, ?_⟩
  rw [linearScan_eq, ← lastOr_append]
  rw [hdec1, hdec2, List.filter_append, List.filter_append]
  have hf1 : t₁.filter (fun n => decide (n.block.ptr < target.ptr)) = t₁ :=
    List.filter_eq_self.mpr (fun a ha => by simpa using hmem1 a ha)
  have hf2 : t₂.filter (fun n => decide (n.block.ptr < target.ptr)) = t₂ :=
    List.filter_eq_self.mpr (fun a ha => by simpa using hmem2 a ha)
  have hf3 : s₂.filter (fun n => decide (n.block.ptr < target.ptr)) = [] :=
    List.filter_eq_nil_iff.mpr (fun a ha => by simpa using hge2 a ha)
  rw [hf1, hf2, hf3, List.append_nil]

/-- C4 counterexample: the claim as stated fails on the code.  For the
well-formed (sorted) singleton Pool holding one level-2 node at address 0
and target address 5 with two levels, the search records that same node at
both levels, so the `back_look` entries are not strictly increasing by
address. -/
theorem search_back_look_not_strict_cex :
    ¬ (List.Chain' (fun x y => optLt x y = true)
         (search 2 ⟨[⟨⟨1, 0⟩, 2⟩]⟩ ⟨0, 5⟩).back_look ∧
       (∀ e ∈ (search 2 ⟨[⟨⟨1, 0⟩, 2⟩]⟩ ⟨0, 5⟩).back_look, ∀ n, e = some n →
         n.block.ptr < 5) ∧
       (search 2 ⟨[⟨⟨1, 0⟩, 2⟩]⟩ ⟨0, 5⟩).node =
         linearScan ⟨0, 5⟩ [⟨⟨1, 0⟩, 2⟩] none) := by
  intro h
  have hbl : (search 2 ⟨[⟨⟨1, 0⟩, 2⟩]⟩ ⟨0, 5⟩).back_look =
      [some ⟨⟨1, 0⟩, 2⟩, some ⟨⟨1, 0⟩, 2⟩] := rfl
  have h1 := h.1
  rw [hbl, List.chain'_cons] at h1
  have h2 : optLt (some ⟨⟨1, 0⟩, 2⟩) (some ⟨⟨1, 0⟩, 2⟩) = true := h1.1
  simp [optLt] at h2

/-- C4 witness: the amended differential property at the spec scenario
Pool with nodes at 0x1000, 0x2000, 0x3000 and target 0x2500. -/
theorem search_sorted_matches_linear_scan_witness :
    List.Chain' (fun x y => optLe x y = true)
      (search 3 ⟨[⟨⟨16, 4096⟩, 1⟩, ⟨⟨16, 8192⟩, 2⟩, ⟨⟨16, 12288⟩, 1⟩]⟩ ⟨0, 9472⟩).back_look ∧
    (∀ e ∈ (search 3 ⟨[⟨⟨16, 4096⟩, 1⟩, ⟨⟨16, 8192⟩, 2⟩, ⟨⟨16, 12288⟩, 1⟩]⟩
        ⟨0, 9472⟩).back_look, ∀ n, e = some n → n.block.ptr < (9472 : Nat)) ∧
    (search 3 ⟨[⟨⟨16, 4096⟩, 1⟩, ⟨⟨16, 8192⟩, 2⟩, ⟨⟨16, 12288⟩, 1⟩]⟩ ⟨0, 9472⟩).node =
      linearScan ⟨0, 9472⟩ [⟨⟨16, 4096⟩, 1⟩, ⟨⟨16, 8192⟩, 2⟩, ⟨⟨16, 12288⟩, 1⟩] none :=
  search_sorted_matches_linear_scan 3
    ⟨[⟨⟨16, 4096⟩, 1⟩, ⟨⟨16, 8192⟩, 2⟩, ⟨⟨16, 12288⟩, 1⟩]⟩ ⟨0, 9472⟩ (by decide)

/-- C2 witness: the sentinel property at the empty Pool and at a Pool with
one node at 4096 searched for target address 5, with three levels. -/
theorem search_below_all_back_look_sentinel_witness :
    (∀ e ∈ (search 3 ⟨[]⟩ ⟨0, 5⟩).back_look, e = none) ∧
    (∀ e ∈ (search 3 ⟨[⟨⟨16, 4096⟩, 1⟩]⟩ ⟨0, 5⟩).back_look, e = none) :=
  ⟨search_below_all_back_look_sentinel 3 ⟨[]⟩ ⟨0, 5⟩ (Or.inl rfl),
   search_below_all_back_look_sentinel 3 ⟨[⟨⟨16, 4096⟩, 1⟩]⟩ ⟨0, 5⟩ (Or.inr (by decide))⟩

/-! ### `Pool::search` with the `&mut self` borrow made explicit

`Pool::search` takes `&mut self` (src/bk/pool.rs:14), so the faithful
state-passing embedding threads the pool value through every step of the
walk and returns its post-call value alongside the `Seek`.  The theorem
for C9 shows the threaded pool comes back unchanged: no step of the walk
stores into the pool. -/

/-- The level-`L` walk with the mutably borrowed pool threaded through. -/
def advanceAtM (target : Block) (L : Nat) : Pool → List BNode → Option BNode →
    Pool × List BNode × Option BNode
  | P, [], l => (P, [], l)
  | P, n :: rest, l =>
    if L ≤ n.level then
      if n.block.ptr < target.ptr then advanceAtM target L P rest (some n)
      else (P, n :: rest, l)
    else
      if probe target L (n :: rest) then advanceAtM target L P rest l
      else (P, n :: rest, l)

/-- The level loop with the mutably borrowed pool threaded through. -/
def searchLevelsM (target : Block) : Nat → Pool → List BNode → Option BNode →
    Pool × List (Option BNode) × List BNode × Option BNode
  | 0, P, s, l => (P, [], s, l)
  | L + 1, P, s, l =>
    let p := advanceAtM target (L + 1) P s l
    let q := searchLevelsM target L p.1 p.2.1 p.2.2
    (q.1, p.2.2 :: q.2.1, q.2.2.1, q.2.2.2)

/-- The base-chain scan with the mutably borrowed pool threaded through. -/
def advanceBaseM (target : Block) : Pool → List BNode → Option BNode → Pool × Option BNode
  | P, [], l => (P, l)
  | P, n :: rest, l =>
    if n.block.ptr < target.ptr then advanceBaseM target P rest (some n) else (P, l)

/-- `Pool::search` in state-passing form: the first component is the
post-call value of the mutably borrowed pool. -/
def searchM (maxLevel : Nat) (P : Pool) (target : Block) : Pool × Seek :=
  let r := searchLevelsM target maxLevel P P.nodes none
  let b := advanceBaseM target r.1 r.2.2.1 r.2.2.2
  (b.1, ⟨r.2.1, b.2⟩)

lemma advanceAtM_pool (target : Block) (L : Nat) :
    ∀ (P : Pool) (s : List BNode) (l : Option BNode), (advanceAtM target L P s l).1 = P := by
  intro P s
  induction s generalizing P with
  | nil => intro l; rfl
  | cons n rest ih =>
    intro l
    by_cases hL : L ≤ n.level
    · by_cases hlt : n.block.ptr < target.ptr
      · simp [advanceAtM, hL, hlt, ih]
      · simp [advanceAtM, hL, hlt]
    · by_cases hpr : probe target L (n :: rest) = true
      · simp [advanceAtM, hL, hpr, ih]
      · simp [advanceAtM, hL, hpr]

lemma searchLevelsM_pool (target : Block) :
    ∀ (L : Nat) (P : Pool) (s : List BNode) (l : Option BNode),
      (searchLevelsM target L P s l).1 = P := by
  intro L
  induction L with
  | zero => intro P s l; rfl
  | succ L ih =>
    intro P s l
    simp only [searchLevelsM]
    rw [ih]
    exact advanceAtM_pool target (L + 1) P s l

lemma advanceBaseM_pool (target : Block) :
    ∀ (P : Pool) (s : List BNode) (l : Option BNode), (advanceBaseM target P s l).1 = P := by
  intro P s
  induction s generalizing P with
  | nil => intro l; rfl
  | cons n rest ih =>
    intro l
    by_cases hlt : n.block.ptr < target.ptr
    · simp [advanceBaseM, hlt, ih]
    · simp [advanceBaseM, hlt]

/-- C9: `Pool::search` never structurally mutates the Pool: the threaded
pool value comes back equal to the input, so the set of nodes, their
blocks, and the forward links at every level (the level-`L` chains) are
identical before and after the call. -/
theorem search_no_structural_mutation (maxLevel : Nat) (P : Pool) (target : Block) :
    (searchM maxLevel P target).1 = P ∧
    (∀ L, chainAt L (searchM maxLevel P target).1.nodes = chainAt L P.nodes) := by
  have h : (searchM maxLevel P target).1 = P := by
    simp only [searchM]
    rw [advanceBaseM_pool, searchLevelsM_pool]
  exact ⟨h, fun L => by rw [h]⟩

end Ralloc
